import Mathlib

/-!
Verification development for `nintendo/pia/mesh.py` (mesh-membership control
protocol): the 32-slot station registry (`StationList`), the serializable
station record (`StationInfo`), the join-response fragment reassembler
(`JoinResponseDecoder`), the outbound fragmentation path
(`MeshProtocol.send_join_response`) and the membership state machine
(`MeshMgr`).

Python bytes are embedded as `List Nat` (every real byte is `< 256`; the
embedding is total on wider naturals).  A raised Python exception is embedded
as `Except.error`: an `.error` result of a top-level operation corresponds to
an exception propagating out of the corresponding Python method (there is no
`try`/`except` anywhere in `mesh.py`).
-/

/-- Embedded Python exceptions raised by the code under verification.
`indexOutOfRange` is an `IndexError` from sequence indexing, `slotOccupied`
is the `IndexError("Tried to assign station to occupied index")` raised by
`StationList.add`, `meshFull` is the `OverflowError` raised by
`StationList.next_index`, `nameError` is a `NameError` (reference to an
undefined name), `attributeError` is an `AttributeError`, and `truncated` is
the decode failure of the external connection-descriptor deserializer. -/
inductive PyErr where
  | indexOutOfRange
  | slotOccupied
  | meshFull
  | nameError
  | attributeError
  | truncated
  deriving DecidableEq

/-- Python `data[i]` on bytes: the byte at `i`, or `IndexError` out of
range (Python indices arriving from byte reads are non-negative). -/
def getByte (data : List Nat) (i : Nat) : Except PyErr Nat :=
  match data, i with
  | [], _ => .error .indexOutOfRange
  | v :: _, 0 => .ok v
  | _ :: rest, i + 1 => getByte rest i

/-- Modelled from the spec: `StationConnectionInfo` lives outside `mesh.py`
(only `src/nintendo/pia/mesh.py` is in scope); per the spec's collaborator
contract (§6) a connection-descriptor type provides
`serialize() -> bytes`, `deserialize(bytes) -> value` reading a fixed-size
prefix, and `sizeof()`.  `rvcid` models the
`connection_info.public_station.rvcid` accessor used by
`MeshMgr.handle_join_response`. -/
structure ConnInfo where
  Desc : Type
  serialize : Desc → List Nat
  deserialize : List Nat → Except PyErr Desc
  sizeofD : Nat
  rvcid : Desc → Nat

/-- Modelled from the spec: the laws the external descriptor type is assumed
to satisfy — serialization has the advertised fixed size, deserialization
reads exactly that prefix back (round-trip), succeeds whenever the buffer is
long enough, and fails with `Truncated` whenever it is shorter than
`sizeof()`. -/
structure ConnInfo.Lawful (M : ConnInfo) : Prop where
  ser_len : ∀ d, (M.serialize d).length = M.sizeofD
  deser_ser : ∀ d rest, M.deserialize (M.serialize d ++ rest) = .ok d
  deser_ok : ∀ b, M.sizeofD ≤ b.length → ∃ d, M.deserialize b = .ok d
  deser_short : ∀ b, b.length < M.sizeofD → M.deserialize b = .error .truncated

/-- Modelled from the spec: a minimal concrete descriptor type satisfying the
collaborator contract, used to instantiate the theorems on concrete inputs.
One wire byte holding the peer's `rvcid`. -/
def byteConn : ConnInfo where
  Desc := Fin 256
  serialize := fun d => [d.val]
  deserialize := fun b =>
    match b with
    | [] => .error .truncated
    | x :: _ => .ok ⟨x % 256, Nat.mod_lt x (by decide)⟩
  sizeofD := 1
  rvcid := fun d => d.val

/-- Class `StationInfo` (mesh.py lines 43-54): a connection descriptor paired with
an assigned index (`collections.namedtuple("StationInfo", "connection_info index")`). -/
structure StationInfo (M : ConnInfo) where
  connection_info : M.Desc
  index : Nat

/-- Method `StationInfo.sizeof`: `StationConnectionInfo.sizeof() + 2`. -/
def StationInfo.sizeofS (M : ConnInfo) : Nat := M.sizeofD + 2

/-- Method `StationInfo.serialize`: descriptor bytes then `[index, 0]`.
(Python `bytes([self.index, 0])` additionally requires `index < 256`;
theorems about real wire data carry that bound as a hypothesis.) -/
def StationInfo.serializeS (M : ConnInfo) (r : StationInfo M) : List Nat :=
  M.serialize r.connection_info ++ [r.index, 0]

/-- Method `StationInfo.deserialize`: read a descriptor, then the index byte at
offset `conn_info.sizeof()`.  The trailing padding byte is never read. -/
def StationInfo.deserializeS (M : ConnInfo) (data : List Nat) :
    Except PyErr (StationInfo M) :=
  (M.deserialize data).bind fun ci =>
  (getByte data M.sizeofD).bind fun idx =>
  .ok ⟨ci, idx⟩

/-- A station handle: the surrounding session layer's peer object.  The mesh
core reads/writes its `index` field and reads `rvcid` (remote identity). -/
structure Station where
  index : Nat
  rvcid : Nat
  deriving DecidableEq

/-- Class `StationList` (mesh.py lines 13-40): `self.stations = [None] * 32`. -/
structure StationList where
  stations : List (Option Station)
  deriving DecidableEq

/-- The freshly constructed registry: 32 empty slots. -/
def initStationList : StationList := ⟨List.replicate 32 none⟩

/-- Method `StationList.is_usable`: `self.stations[index] is None`
(`IndexError` when the index is outside the 32-slot list). -/
def StationList.is_usable (sl : StationList) (index : Nat) : Except PyErr Bool :=
  match sl.stations[index]? with
  | some v => .ok v.isNone
  | none => .error .indexOutOfRange

/-- Method `StationList.next_index`: lowest free slot, `OverflowError` when the
registry is full. -/
def StationList.next_index (sl : StationList) : Except PyErr Nat :=
  match sl.stations.findIdx? Option.isNone with
  | some i => .ok i
  | none => .error .meshFull

/-- The part of `StationList.add` after the index has been resolved: check
`is_usable`, raise `IndexError("Tried to assign station to occupied index")`
if occupied, otherwise set `station.index = index` and store the station in
the slot.  Returns the updated registry together with the mutated station
handle. -/
def StationList.addAt (sl : StationList) (station : Station) (index : Nat) :
    Except PyErr (StationList × Station) :=
  (sl.is_usable index).bind fun usable =>
  if usable then
    let st' : Station := { station with index := index }
    .ok (⟨sl.stations.set index (some st')⟩, st')
  else
    .error .slotOccupied

/-- Method `StationList.add` (mesh.py lines 17-25): resolve the index
(`next_index()` when not given), then `addAt`. -/
def StationList.add (sl : StationList) (station : Station) (index? : Option Nat) :
    Except PyErr (StationList × Station) :=
  (match index? with
   | none => sl.next_index
   | some i => .ok i).bind fun index =>
  sl.addAt station index

/-- Number of occupied registry slots (what `__len__` reports as
`32 - self.stations.count(None)` on the always-32-element list). -/
def StationList.countOccupied (sl : StationList) : Nat :=
  (sl.stations.filter Option.isSome).length

/-- One `add` call with Python exception semantics at the sequence level: the
raise happens before any mutation, so a failed `add` leaves the registry as
it was. -/
def StationList.addStep (sl : StationList) (op : Station × Option Nat) : StationList :=
  match sl.add op.1 op.2 with
  | .ok (sl', _) => sl'
  | .error _ => sl

/-- A sequence of `add` calls starting from a given registry. -/
def StationList.applyAdds (sl : StationList) (ops : List (Station × Option Nat)) :
    StationList :=
  ops.foldl StationList.addStep sl

/-- State of `JoinResponseDecoder` (mesh.py lines 57-111).  Peers (the `station`
argument, compared with `==` in `check_info`) are embedded as `Nat` handles.
In Python the non-`station` attributes are unset until the first
`update_info` call and are stale after `reset`; `parse` always runs
`update_info` before reading them, so they are write-before-read. -/
structure JoinResponseDecoder (M : ConnInfo) where
  station : Option Nat
  num_stations : Nat
  host_index : Nat
  assigned_index : Nat
  num_fragments : Nat
  fragments_received : List Bool
  infos : List (Option (StationInfo M))

/-- Method `JoinResponseDecoder.reset`: only `self.station = None`; every other
attribute is left as it was. -/
def JoinResponseDecoder.reset (M : ConnInfo) (d : JoinResponseDecoder M) :
    JoinResponseDecoder M :=
  { d with station := none }

/-- The decoder as constructed by `__init__` (which calls `reset`); the
fields other than `station` stand for the unset Python attributes. -/
def initDecoder (M : ConnInfo) : JoinResponseDecoder M :=
  ⟨none, 0, 0, 0, 0, [], []⟩

/-- What `JoinResponseDecoder.finished` is fired with on completion:
`(station, self.host_index, self.assigned_index, self.infos)`. -/
structure Finished (M : ConnInfo) where
  station : Nat
  host_index : Nat
  assigned_index : Nat
  infos : List (Option (StationInfo M))

/-- Method `JoinResponseDecoder.update_info` (mesh.py lines 97-104): assigns every
decoder attribute from the fragment header, so the result is independent of
the previous decoder state. -/
def update_info (M : ConnInfo) (q : Nat) (msg : List Nat) :
    Except PyErr (JoinResponseDecoder M) :=
  (getByte msg 1).bind fun n =>
  (getByte msg 2).bind fun h =>
  (getByte msg 3).bind fun a =>
  (getByte msg 4).bind fun f =>
  .ok { station := some q, num_stations := n, host_index := h,
        assigned_index := a, num_fragments := f,
        fragments_received := List.replicate f false,
        infos := List.replicate n none }

/-- Method `JoinResponseDecoder.check_info` (mesh.py lines 106-111): the chained
`and` of comparisons, short-circuiting left to right exactly as Python does
(so a mismatching peer makes no byte access at all). -/
def check_info (M : ConnInfo) (d : JoinResponseDecoder M) (q : Nat)
    (msg : List Nat) : Except PyErr Bool :=
  if d.station = some q then
    (getByte msg 1).bind fun n =>
    if d.num_stations = n then
      (getByte msg 2).bind fun h =>
      if d.host_index = h then
        (getByte msg 3).bind fun a =>
        if d.assigned_index = a then
          (getByte msg 4).bind fun f =>
          .ok (decide (d.num_fragments = f))
        else .ok false
      else .ok false
    else .ok false
  else .ok false

/-- The record loop of `parse` (mesh.py lines 83-91): for each of
`cnt` records, `index = fragment_offs + i`; reading `self.infos[index]`
(the overlap check, which only logs) raises `IndexError` when the index is
outside the station list; then one `StationInfo` is deserialized from
`message[offset:]` and written to `self.infos[index]`. -/
def parseRecords (M : ConnInfo) (msg : List Nat) :
    Nat → Nat → Nat → List (Option (StationInfo M)) →
    Except PyErr (List (Option (StationInfo M)))
  | 0, _, _, infos => .ok infos
  | cnt + 1, offset, idx, infos =>
    match infos[idx]? with
    | none => .error .indexOutOfRange
    | some _ =>
      (StationInfo.deserializeS M (msg.drop offset)).bind fun info =>
      parseRecords M msg cnt (offset + StationInfo.sizeofS M) (idx + 1)
        (infos.set idx (some info))

/-- The header phase of `parse` (mesh.py lines 68-73): first fragment
initializes the context; a mismatching header or peer logs, resets and
re-initializes from the new fragment (`update_info` overwrites every field,
so the reset is absorbed). -/
def parseHeader (M : ConnInfo) (d : JoinResponseDecoder M) (q : Nat)
    (msg : List Nat) : Except PyErr (JoinResponseDecoder M) :=
  match d.station with
  | none => update_info M q msg
  | some _ =>
    (check_info M d q msg).bind fun same =>
    if same then .ok d else update_info M q msg

/-- Processing of a not-yet-received fragment (mesh.py lines 77-95): mark
`fragment_index` received, read `fragment_length` (`message[6]`) and
`fragment_offs` (`message[7]`), deserialize the records, and on
`all(self.infos)` fire `finished` with
`(station, host_index, assigned_index, infos)` and `reset`. -/
def parseFragment (M : ConnInfo) (d : JoinResponseDecoder M) (q : Nat)
    (msg : List Nat) (fi : Nat) :
    Except PyErr (JoinResponseDecoder M × Option (Finished M)) :=
  let d1 : JoinResponseDecoder M :=
    { d with fragments_received := d.fragments_received.set fi true }
  (getByte msg 6).bind fun fl =>
  (getByte msg 7).bind fun fo =>
  (parseRecords M msg fl 8 fo d1.infos).bind fun infos1 =>
  let d2 : JoinResponseDecoder M := { d1 with infos := infos1 }
  if infos1.all Option.isSome then
    .ok (JoinResponseDecoder.reset M d2,
         some ⟨q, d2.host_index, d2.assigned_index, infos1⟩)
  else
    .ok (d2, none)

/-- The body of `parse` (mesh.py lines 75-95): read `fragment_index`
(`message[5]`), drop the fragment when already received, else process it
(`parseFragment`). -/
def parseBody (M : ConnInfo) (d : JoinResponseDecoder M) (q : Nat)
    (msg : List Nat) :
    Except PyErr (JoinResponseDecoder M × Option (Finished M)) :=
  (getByte msg 5).bind fun fi =>
  match d.fragments_received[fi]? with
  | none => .error .indexOutOfRange
  | some true => .ok (d, none)
  | some false => parseFragment M d q msg fi

/-- Method `JoinResponseDecoder.parse` (mesh.py lines 67-95): header phase followed
by the fragment body.  An `.error` result is an exception propagating out of
the Python method (nothing in `mesh.py` catches it); note that Python leaves
the decoder object partially mutated in that case, which the `Except`
embedding does not track. -/
def parse (M : ConnInfo) (d : JoinResponseDecoder M) (q : Nat)
    (msg : List Nat) :
    Except PyErr (JoinResponseDecoder M × Option (Finished M)) :=
  (parseHeader M d q msg).bind fun d' => parseBody M d' q msg

/-- Feed a sequence of `(peer, message)` fragments to the decoder,
collecting the `finished` emissions in order. -/
def runParse (M : ConnInfo) :
    JoinResponseDecoder M → List (Nat × List Nat) →
    Except PyErr (JoinResponseDecoder M × List (Finished M))
  | d, [] => .ok (d, [])
  | d, (q, m) :: rest =>
    (parse M d q m).bind fun de =>
    (runParse M de.1 rest).bind fun rs =>
    .ok (rs.1, de.2.toList ++ rs.2)

/-- Local `per_packet` of `MeshProtocol.send_join_response` (mesh.py lines
218-221): `infosize = (StationConnectionInfo.sizeof() + 4) & ~3` (round
`sizeof + 4` down to a multiple of 4), `limit = size_limit - 0xC`,
`per_packet = limit // infosize`. -/
def perPacket (M : ConnInfo) (size_limit : Nat) : Nat :=
  (size_limit - 12) / ((M.sizeofD + 4) / 4 * 4)

/-- Local `fragments` of `MeshProtocol.send_join_response` (mesh.py line 222):
`(len(stations) + per_packet - 1) // per_packet`.  (Python raises
`ZeroDivisionError` when `per_packet == 0`; theorems assume a positive
capacity, as the claim does.) -/
def numFragments (M : ConnInfo) (n size_limit : Nat) : Nat :=
  (n + perPacket M size_limit - 1) / perPacket M size_limit

/-- Method `MeshProtocol.send_join_response` (mesh.py lines 215-239): the list of
fragment packets sent (in order).  Fragment `i` carries
`[0x02, len(stations), host_index, assigned_index, fragments, i,
num_infos, offset]` followed by, for each record of its range, the
descriptor bytes and `[index, 0]` — i.e. the record's `StationInfo`
serialization. -/
def send_join_response (M : ConnInfo) (host_index assigned_index : Nat)
    (stations : List (StationInfo M)) (size_limit : Nat) : List (List Nat) :=
  (List.range (numFragments M stations.length size_limit)).map fun i =>
    let offset := i * perPacket M size_limit
    let num_infos := min (stations.length - offset) (perPacket M size_limit)
    [2, stations.length, host_index, assigned_index,
     numFragments M stations.length size_limit, i, num_infos, offset]
      ++ ((stations.drop offset).take num_infos).flatMap (StationInfo.serializeS M)

/-- State of `MeshMgr` (mesh.py lines 279-296).  `sessionStation` is
`self.session.station` (the local station handle); `pending_connect` is the
`rvcid -> index` dict, embedded as a lookup function. -/
structure MeshMgr where
  sessionStation : Station
  stations : StationList
  host_index : Option Nat
  update_counter : Int
  expecting_join_response : Bool
  pending_connect : Nat → Option Nat

/-- Method `MeshMgr.is_host`: `self.session.station.index == self.host_index`
(`False` when `host_index` is `None`). -/
def MeshMgr.is_host (m : MeshMgr) : Bool :=
  m.host_index == some m.sessionStation.index

/-- Method `MeshMgr.handle_join_request` (mesh.py lines 301-312).  The second
component of the result lists the `send_deny_join(station, reason)` calls
made.  When the local station is host, line 303 evaluates
`station_addr.address`, but no name `station_addr` is in scope (the
parameter is `station_address`): Python raises `NameError` before the
address comparison, the deny and any registration can happen.  When not
host, the request is denied with reason 1. -/
def handle_join_request (m : MeshMgr) (station : Station)
    (_station_index : Nat) (_station_address : Nat) :
    Except PyErr (MeshMgr × List (Station × Nat)) :=
  if m.is_host then
    .error .nameError
  else
    .ok (m, [(station, 1)])

/-- The `for info in infos` loop of `MeshMgr.handle_join_response` (mesh.py
lines 321-323): `self.pending_connect[rvcid] = info.index` for every record,
with no exclusion of the local station's own record.  A `None` entry would
raise `AttributeError` on `info.connection_info` (the decoder only completes
with all entries filled). -/
def pendingFold (M : ConnInfo) (pc : Nat → Option Nat) :
    List (Option (StationInfo M)) → Except PyErr (Nat → Option Nat)
  | [] => .ok pc
  | none :: _ => .error .attributeError
  | some info :: rest =>
    pendingFold M
      (fun k => if k = M.rvcid info.connection_info then some info.index else pc k)
      rest

/-- Method `MeshMgr.handle_join_response` (mesh.py lines 314-324): when not
expecting a response, log and ignore; otherwise clear the flag, record
`host_index`, register the local station at `my_index` (this `add` can
raise, and in Python the flag and `host_index` assignments have already
happened by then), then record every received record's
`connection_info.public_station.rvcid` in `pending_connect`. -/
def handle_join_response (M : ConnInfo) (m : MeshMgr)
    (host_index my_index : Nat) (infos : List (Option (StationInfo M))) :
    Except PyErr MeshMgr :=
  if m.expecting_join_response then
    let m1 : MeshMgr :=
      { m with expecting_join_response := false, host_index := some host_index }
    (m1.stations.add m1.sessionStation (some my_index)).bind fun slst =>
    let m2 : MeshMgr := { m1 with stations := slst.1, sessionStation := slst.2 }
    (pendingFold M m2.pending_connect infos).bind fun pc =>
    .ok { m2 with pending_connect := pc }
  else
    .ok m

/-! Machinery for the reassembly claims.  A fragment of a join response is
described by a triple `(fragment_index, (record_offset, record_count))`;
`taggedFrags` attaches the fragment indices `0, 1, ...` of an original
split, and `fragMsg` builds the wire message the sender emits for one
fragment of the station list `recs`. -/

/-- Fragment `(offset, count)` ranges tagged with their fragment indices. -/
def taggedFrags (frags : List (Nat × Nat)) : List (Nat × Nat × Nat) :=
  frags.enum

/-- The record range `[offset, offset+count)` of a tagged fragment. -/
def rangesOf (t : Nat × Nat × Nat) : List Nat :=
  List.range' t.2.1 t.2.2

/-- The wire message of one fragment of the list `recs`:
the join-response header followed by the serialized records of its range. -/
def fragMsg (M : ConnInfo) (recs : List (StationInfo M)) (h a F : Nat)
    (t : Nat × Nat × Nat) : List Nat :=
  [2, recs.length, h, a, F, t.1, t.2.2, t.2.1]
    ++ ((recs.drop t.2.1).take t.2.2).flatMap (StationInfo.serializeS M)

/-- Whether record index `j` is covered by some fragment of `S`. -/
def covered (S : List (Nat × Nat × Nat)) (j : Nat) : Bool :=
  S.any fun t => decide (t.2.1 ≤ j ∧ j < t.2.1 + t.2.2)

/-- Whether every record index below `N` is covered by `S`. -/
def coveredAll (S : List (Nat × Nat × Nat)) (N : Nat) : Bool :=
  (List.range N).all fun j => covered S j

/-- The decoder state after accepting exactly the fragments `S` of an
attempt with header `(recs.length, h, a, F)` from peer `p`: the fragment
bitset marks the indices of `S`, and a record slot is filled exactly when
some fragment of `S` covers it. -/
def invDecoder (M : ConnInfo) (recs : List (StationInfo M)) (p h a F : Nat)
    (S : List (Nat × Nat × Nat)) : JoinResponseDecoder M :=
  { station := some p, num_stations := recs.length, host_index := h,
    assigned_index := a, num_fragments := F,
    fragments_received := (List.range F).map fun i => S.any fun t => t.1 == i,
    infos := (List.range recs.length).map fun j =>
      if covered S j then recs[j]? else none }

/-- Write the records `rs` into consecutive slots starting at `idx` (what
the record loop of `parse` does to `self.infos` on success). -/
def writeAll (M : ConnInfo) :
    List (Option (StationInfo M)) → Nat → List (StationInfo M) →
    List (Option (StationInfo M))
  | infos, _, [] => infos
  | infos, idx, r :: rs => writeAll M (infos.set idx (some r)) (idx + 1) rs

/-- A concrete five-record station list over the concrete descriptor model,
used to evaluate the fragmentation and reassembly theorems (the spec's
`num_stations=5`, `per_packet=2` example). -/
def sampleRecords : List (StationInfo byteConn) :=
  [⟨⟨10, by decide⟩, 0⟩, ⟨⟨11, by decide⟩, 1⟩, ⟨⟨12, by decide⟩, 2⟩,
   ⟨⟨13, by decide⟩, 3⟩, ⟨⟨14, by decide⟩, 4⟩]

/-! Helper lemmas. -/

/-- Reading with `getByte` is lookup: success with the entry at `i` when in range,
`IndexError` otherwise. -/
theorem getByte_getElem (data : List Nat) (i : Nat) :
    getByte data i = match data[i]? with
      | some v => .ok v
      | none => .error .indexOutOfRange := by
  induction data generalizing i with
  | nil => rfl
  | cons v rest ih =>
    cases i with
    | zero => rw [List.getElem?_cons_zero]; rfl
    | succ i =>
      show getByte rest i = _
      rw [ih i, List.getElem?_cons_succ]

/-- The concrete descriptor model satisfies the collaborator contract. -/
theorem byteConn_lawful : byteConn.Lawful := by
  refine ⟨fun d => rfl, fun d rest => ?_, fun b hb => ?_, fun b hb => ?_⟩
  · show byteConn.deserialize (d.val :: rest) = .ok d
    simp only [byteConn]
    congr 1
    exact Fin.ext (Nat.mod_eq_of_lt d.isLt)
  · match b, hb with
    | x :: b, _ => exact ⟨_, rfl⟩
  · match b, hb with
    | [], _ => rfl

/-- Deserializing a serialized record from the front of a longer buffer
yields the record back (the trailing bytes are untouched). -/
theorem deserializeS_serializeS (M : ConnInfo) (hM : M.Lawful)
    (r : StationInfo M) (rest : List Nat) :
    StationInfo.deserializeS M (StationInfo.serializeS M r ++ rest) = .ok r := by
  have hlen := hM.ser_len r.connection_info
  unfold StationInfo.deserializeS StationInfo.serializeS
  rw [List.append_assoc, hM.deser_ser]
  show (getByte _ M.sizeofD).bind _ = _
  rw [getByte_getElem]
  rw [List.getElem?_append_right (by omega), hlen, Nat.sub_self]
  rfl

/-! Claim theorems. -/

/-- C1: the claim says a decode failure on attacker-controlled join-response
fragment bytes is surfaced as a recoverable error and the message dropped.
The code has no error handling: on a fragment whose `fragment_index`
(`message[5] = 5`) lies outside the announced `fragment_count`
(`message[4] = 1`), `self.fragments_received[fragment_index]` raises an
uncaught `IndexError` that propagates out of `parse` (and out of
`handle_join_response` / `handle_message`, none of which catch it). -/
theorem mesh_C1_parse_uncaught_index_error :
    parse byteConn (initDecoder byteConn) 0 [2, 1, 0, 1, 1, 5, 0, 0]
      = .error .indexOutOfRange := rfl

/-- C2: when the local station is host, `handle_join_request` evaluates
`station_addr.address` (mesh.py line 303) but the parameter is named
`station_address`: every join request handled as host raises `NameError`
before the address comparison, so the mismatch case is never denied with
reason 2 (nor is the requester ever registered — nothing runs at all). -/
theorem mesh_C2_host_join_request_name_error (m : MeshMgr) (st : Station)
    (si sa : Nat) (h : m.is_host = true) :
    handle_join_request m st si sa = .error .nameError := by
  unfold handle_join_request
  rw [h]
  rfl

/-- C2 witness: a concrete host (own index 0, `host_index = 0`) raising
`NameError` on a join request. -/
theorem mesh_C2_witness :
    handle_join_request
      ⟨⟨0, 5⟩, initStationList, some 0, -1, false, fun _ => none⟩
      ⟨1, 6⟩ 1 0 = .error .nameError :=
  mesh_C2_host_join_request_name_error _ _ _ _ rfl

/-- C6: serialize-then-deserialize on a `StationInfo` reproduces the
original `(descriptor, index)` pair, assuming the external descriptor type
round-trips (the `Lawful` hypothesis). -/
theorem mesh_C6_station_record_roundtrip (M : ConnInfo) (hM : M.Lawful)
    (r : StationInfo M) :
    StationInfo.deserializeS M (StationInfo.serializeS M r) = .ok r := by
  have h := deserializeS_serializeS M hM r []
  rwa [List.append_nil] at h

/-- C6 witness: round-trip evaluated on a concrete record. -/
theorem mesh_C6_witness :
    StationInfo.deserializeS byteConn
      (StationInfo.serializeS byteConn ⟨⟨5, by decide⟩, 9⟩)
      = .ok ⟨⟨5, by decide⟩, 9⟩ :=
  mesh_C6_station_record_roundtrip byteConn byteConn_lawful _

/-- C7 counterexample: the claim says every buffer strictly shorter than
`sizeof() = sizeof(descriptor) + 2` fails.  A buffer of length
`sizeof(descriptor) + 1` (here 2 < 3) deserializes successfully, because the
trailing padding byte is never read. -/
theorem mesh_C7_counterexample :
    ([5, 9] : List Nat).length < StationInfo.sizeofS byteConn ∧
    StationInfo.deserializeS byteConn [5, 9] = .ok ⟨⟨5, by decide⟩, 9⟩ :=
  ⟨by decide, rfl⟩

/-- C7 amended: a buffer of length at most `sizeof(descriptor)` always
fails — with the descriptor's `Truncated` when even the descriptor does not
fit, and with the `IndexError` of the index-byte read when exactly the
descriptor fits; a buffer of length `sizeof(descriptor) + 1` already
succeeds (see the counterexample). -/
theorem mesh_C7_deserialize_short_fails (M : ConnInfo) (hM : M.Lawful)
    (b : List Nat) (hb : b.length ≤ M.sizeofD) :
    StationInfo.deserializeS M b
      = .error (if b.length < M.sizeofD then .truncated else .indexOutOfRange) := by
  unfold StationInfo.deserializeS
  by_cases hlt : b.length < M.sizeofD
  · rw [hM.deser_short b hlt, if_pos hlt]
    rfl
  · obtain ⟨d, hd⟩ := hM.deser_ok b (by omega)
    rw [hd, if_neg hlt]
    show (getByte b M.sizeofD).bind _ = _
    rw [getByte_getElem]
    rw [List.getElem?_eq_none (by omega)]
    rfl

/-- C7 witness: a one-byte buffer (exactly the descriptor size) fails with
the index-byte `IndexError`. -/
theorem mesh_C7_witness :
    StationInfo.deserializeS byteConn [5] = .error .indexOutOfRange :=
  mesh_C7_deserialize_short_fails byteConn byteConn_lawful [5] (by decide)

/-- Any successful `addAt` only rewrites one slot: it preserves the length
of the slot list. -/
theorem addAt_ok_length (sl : StationList) (st : Station) (i : Nat)
    (sl' : StationList) (st' : Station)
    (h : sl.addAt st i = .ok (sl', st')) :
    sl'.stations.length = sl.stations.length := by
  unfold StationList.addAt StationList.is_usable at h
  split at h
  · simp only [Except.bind] at h
    split at h
    · cases h
      exact List.length_set ..
    · cases h
  · simp only [Except.bind] at h
    cases h

/-- One `add` (with exception recovery) never changes the number of slots. -/
theorem addStep_length (sl : StationList) (op : Station × Option Nat) :
    (sl.addStep op).stations.length = sl.stations.length := by
  unfold StationList.addStep
  cases h : sl.add op.1 op.2 with
  | error e => rfl
  | ok v =>
    unfold StationList.add at h
    cases hio : op.2 with
    | some i =>
      rw [hio] at h
      simp only [Except.bind] at h
      exact addAt_ok_length sl op.1 i v.1 v.2 h
    | none =>
      rw [hio] at h
      cases hn : sl.next_index with
      | error e => rw [hn] at h; simp only [Except.bind] at h; cases h
      | ok i =>
        rw [hn] at h
        simp only [Except.bind] at h
        exact addAt_ok_length sl op.1 i v.1 v.2 h

/-- C8: (a) after any sequence of `add` operations the registry holds at
most 32 occupied slots; (b) `add` with an explicit occupied index always
fails with the occupied-slot `IndexError`, and (exception recovery at the
sequence level) leaves the registry unchanged — in the Python code the
raise happens before `station.index` or any slot is assigned. -/
theorem mesh_C8_registry_bounded_and_occupied_add_fails :
    (∀ ops : List (Station × Option Nat),
      (initStationList.applyAdds ops).countOccupied ≤ 32) ∧
    (∀ (sl : StationList) (st t : Station) (i : Nat),
      sl.stations[i]? = some (some t) →
      sl.add st (some i) = .error .slotOccupied ∧ sl.addStep (st, some i) = sl) := by
  constructor
  · intro ops
    have hlen : ∀ (ops : List (Station × Option Nat)) (sl : StationList),
        (sl.applyAdds ops).stations.length = sl.stations.length := by
      intro ops
      induction ops with
      | nil => intro sl; rfl
      | cons op rest ih =>
        intro sl
        show ((sl.addStep op).applyAdds rest).stations.length = _
        rw [ih (sl.addStep op), addStep_length]
    calc (initStationList.applyAdds ops).countOccupied
        ≤ (initStationList.applyAdds ops).stations.length :=
          List.length_filter_le _ _
      _ = 32 := hlen ops initStationList
  · intro sl st t i hocc
    have hadd : sl.add st (some i) = .error .slotOccupied := by
      simp only [StationList.add, StationList.addAt, StationList.is_usable,
        Except.bind, hocc, Option.isNone]
      rfl
    exact ⟨hadd, by unfold StationList.addStep; rw [hadd]⟩

/-- C8 witness: a two-`add` sequence stays within 32 slots, and re-adding to
the occupied slot 3 fails with the occupied-slot error and changes nothing. -/
theorem mesh_C8_witness :
    (initStationList.applyAdds [(⟨9, 1⟩, none), (⟨9, 2⟩, some 3)]).countOccupied ≤ 32 ∧
    (initStationList.addStep (⟨9, 2⟩, some 3)).add ⟨9, 4⟩ (some 3)
      = .error .slotOccupied :=
  ⟨mesh_C8_registry_bounded_and_occupied_add_fails.1 _,
   ((mesh_C8_registry_bounded_and_occupied_add_fails.2
      (initStationList.addStep (⟨9, 2⟩, some 3)) ⟨9, 4⟩ ⟨3, 2⟩ 3 (by decide)).1)⟩

/-- C10: `add` on a free explicit slot `i` succeeds, writes the inserted
station (with its `index` field set to `i`) into slot `i`, and leaves every
other slot — and the slot count — unchanged. -/
theorem mesh_C10_add_frame (sl : StationList) (st : Station) (i : Nat)
    (hfree : sl.stations[i]? = some none) :
    ∃ (sl' : StationList) (st' : Station),
      sl.add st (some i) = .ok (sl', st') ∧
      st' = { st with index := i } ∧
      sl'.stations[i]? = some (some st') ∧
      (∀ j, j ≠ i → sl'.stations[j]? = sl.stations[j]?) ∧
      sl'.stations.length = sl.stations.length := by
  have hi : i < sl.stations.length := by
    by_contra hge
    rw [List.getElem?_eq_none (by omega)] at hfree
    exact absurd hfree (by simp)
  refine ⟨⟨sl.stations.set i (some { st with index := i })⟩,
    { st with index := i }, ?_, rfl, ?_, ?_, ?_⟩
  · simp only [StationList.add, StationList.addAt, StationList.is_usable,
      Except.bind, hfree, Option.isNone]
    rfl
  · exact (List.getElem?_set_self hi).trans rfl
  · intro j hj
    exact List.getElem?_set_ne (fun h => hj h.symm)
  · exact List.length_set ..

/-- C10 witness: adding to free slot 4 of the empty registry touches only
slot 4. -/
theorem mesh_C10_witness :
    ∃ (sl' : StationList) (st' : Station),
      initStationList.add ⟨7, 9⟩ (some 4) = .ok (sl', st') ∧
      st' = ⟨4, 9⟩ ∧
      sl'.stations[4]? = some (some st') ∧
      (∀ j, j ≠ 4 → sl'.stations[j]? = initStationList.stations[j]?) ∧
      sl'.stations.length = initStationList.stations.length :=
  mesh_C10_add_frame initStationList ⟨7, 9⟩ 4 (by decide)

/-- C9: while collecting (a peer is tracked), (a) a fragment from a
different peer always makes `check_info` report a mismatch, and (b) any
fragment failing `check_info` (different peer or any differing header
field) makes `parse` behave exactly as if the decoder had been freshly
reset: the prior partial state is discarded and the context re-initialized
from the new fragment's header (`update_info` overwrites every field, so
`parse` on the mismatching fragment equals `parse` from the initial
decoder). -/
theorem mesh_C9_mismatch_hard_reset (M : ConnInfo) (d : JoinResponseDecoder M)
    (p q : Nat) (msg : List Nat) :
    (d.station = some p → p ≠ q → check_info M d q msg = .ok false) ∧
    (d.station = some p → check_info M d q msg = .ok false →
      parse M d q msg = parse M (initDecoder M) q msg) := by
  constructor
  · intro hst hne
    unfold check_info
    rw [hst, if_neg (by simpa using hne)]
  · intro hst hchk
    unfold parse parseHeader
    rw [hst, hchk]
    rfl

/-- C9 witness: a decoder tracking peer 0 with a two-fragment attempt,
hit by a fragment from peer 1: `parse` equals `parse` from the fresh
decoder. -/
theorem mesh_C9_witness :
    parse byteConn ⟨some 0, 3, 0, 1, 2, [false, false], [none, none, none]⟩ 1
        [2, 1, 0, 1, 1, 0, 1, 0, 5, 9, 0]
      = parse byteConn (initDecoder byteConn) 1 [2, 1, 0, 1, 1, 0, 1, 0, 5, 9, 0] :=
  (mesh_C9_mismatch_hard_reset byteConn _ 0 1 _).2 rfl
    ((mesh_C9_mismatch_hard_reset byteConn _ 0 1 _).1 rfl (by decide))

/-- Lookup characterization of the `pending_connect` loop: after the loop,
a key maps to the index of the last record carrying that `rvcid`, and to
its old value when no record carries it. -/
theorem pendingFold_lookup (M : ConnInfo) :
    ∀ (infos : List (Option (StationInfo M))) (pc : Nat → Option Nat),
    (∀ o ∈ infos, o.isSome) →
    ∃ pc', pendingFold M pc infos = .ok pc' ∧ ∀ k, pc' k =
      match (infos.filterMap id).reverse.find?
          (fun r => M.rvcid r.connection_info == k) with
      | some r => some r.index
      | none => pc k
  | [], pc, _ => ⟨pc, rfl, fun k => by simp⟩
  | none :: rest, pc, hs => absurd (hs none (by simp)) (by simp)
  | some info :: rest, pc, hs => by
    obtain ⟨pc', hok, hchar⟩ := pendingFold_lookup M rest
      (fun k => if k = M.rvcid info.connection_info then some info.index else pc k)
      (fun o ho => hs o (List.mem_cons_of_mem _ ho))
    refine ⟨pc', hok, fun k => ?_⟩
    rw [hchar k]
    simp only [List.filterMap_cons, id, List.reverse_cons, List.find?_append]
    cases hfind : (rest.filterMap id).reverse.find?
        (fun r => M.rvcid r.connection_info == k) with
    | some r => simp [hfind]
    | none =>
      simp only [hfind, Option.none_or]
      by_cases hk : M.rvcid info.connection_info = k
      · simp [List.find?, hk]
      · have h1 : (M.rvcid info.connection_info == k) = false := by simpa using hk
        simp only [List.find?, h1]
        rw [if_neg (fun hh => hk hh.symm)]

/-- C4 (amended): on completion of a join response while expecting one,
`handle_join_response` clears the expecting flag, records `host_index`,
registers the local station at the assigned index, and records in
`pending_connect` the remote identity (`rvcid`) of **every** received
StationRecord — including the local station's own record if one is present
(the code has no "other than self" exclusion; in the normal protocol the
host's list does not contain the joiner, so the two readings coincide
there) — each mapped to that record's index (the last record wins on a
duplicate identity). -/
theorem mesh_C4_join_response_completion (M : ConnInfo) (m : MeshMgr)
    (h my : Nat) (infos : List (Option (StationInfo M)))
    (hexp : m.expecting_join_response = true)
    (hfree : m.stations.stations[my]? = some none)
    (hs : ∀ o ∈ infos, o.isSome) :
    ∃ m', handle_join_response M m h my infos = .ok m' ∧
      m'.expecting_join_response = false ∧
      m'.host_index = some h ∧
      m'.sessionStation = { m.sessionStation with index := my } ∧
      m'.stations.stations[my]? = some (some m'.sessionStation) ∧
      ∀ k, m'.pending_connect k =
        match (infos.filterMap id).reverse.find?
            (fun r => M.rvcid r.connection_info == k) with
        | some r => some r.index
        | none => m.pending_connect k := by
  obtain ⟨sl', st', hadd, hst', hslot, _, _⟩ :=
    mesh_C10_add_frame m.stations m.sessionStation my hfree
  obtain ⟨pc', hpc, hchar⟩ := pendingFold_lookup M infos m.pending_connect hs
  refine ⟨⟨st', sl', some h, m.update_counter, false, pc'⟩,
    ?_, rfl, rfl, hst', ?_, hchar⟩
  · unfold handle_join_response
    rw [if_pos hexp]
    dsimp only
    rw [hadd]
    show (pendingFold M m.pending_connect infos).bind _ = _
    rw [hpc]
    rfl
  · exact hslot

/-- C4 counterexample: the claim as frozen says only records **other than
the local station itself** are recorded.  Concrete input: the local station
has remote identity `rvcid = 7`; the completed response consists solely of
the local station's own record (identity 7, index 1); `pending_connect`
starts empty, yet after `handle_join_response` identity 7 is mapped to 1 —
the code records the local station's own record too. -/
theorem mesh_C4_counterexample :
    (handle_join_response byteConn
        ⟨⟨99, 7⟩, initStationList, none, -1, true, fun _ => none⟩ 0 1
        [some ⟨⟨7, by decide⟩, 1⟩]).map (fun m => m.pending_connect 7)
      = .ok (some 1) := rfl

/-- C4 witness: the amended theorem evaluated on a concrete client state and
a one-record response. -/
theorem mesh_C4_witness :
    ∃ m', handle_join_response byteConn
        ⟨⟨99, 8⟩, initStationList, none, -1, true, fun _ => none⟩ 0 1
        [some ⟨⟨3, by decide⟩, 2⟩] = .ok m' ∧
      m'.expecting_join_response = false ∧ m'.host_index = some 0 := by
  obtain ⟨m', h1, h2, h3, _⟩ :=
    mesh_C4_join_response_completion byteConn
      ⟨⟨99, 8⟩, initStationList, none, -1, true, fun _ => none⟩ 0 1
      [some ⟨⟨3, by decide⟩, 2⟩] rfl (by decide)
      (fun o ho => by cases List.mem_singleton.mp ho; rfl)
  exact ⟨m', h1, h2, h3⟩

/-- Consecutive `P`-sized blocks starting at multiples of `P` concatenate to
an initial segment. -/
theorem range_flatMap_blocks (P f : Nat) :
    (List.range f).flatMap (fun i => List.range' (i * P) P)
      = List.range (f * P) := by
  induction f with
  | zero => simp
  | succ f ih =>
    rw [List.range_succ, List.flatMap_append, ih, List.flatMap_singleton,
      List.range_eq_range', List.range_eq_range']
    have h := List.range'_append 0 (f * P) P 1
    simp only [Nat.zero_add, Nat.one_mul] at h
    rw [h]
    congr 1
    ring

/-- The ranges `[i*P, i*P + min (N - i*P) P)` of the `ceil(N/P)` fragments
concatenate, in order, to exactly `[0, N)`: the partition underlying
`send_join_response`. -/
theorem partition_range (N P : Nat) (hP : 0 < P) (hN : 0 < N) :
    (List.range ((N + P - 1) / P)).flatMap
        (fun i => List.range' (i * P) (min (N - i * P) P))
      = List.range N := by
  obtain ⟨N', rfl⟩ : ∃ N', N = N' + 1 := ⟨N - 1, by omega⟩
  have hF : (N' + 1 + P - 1) / P = N' / P + 1 := by
    rw [show N' + 1 + P - 1 = N' + P from by omega, Nat.add_div_right _ hP]
  rw [hF]
  have hfle : N' / P * P ≤ N' := Nat.div_mul_le_self ..
  have hmod := Nat.div_add_mod N' P
  rw [Nat.mul_comm] at hmod
  have hmlt := Nat.mod_lt N' hP
  have hlt : N' + 1 ≤ (N' / P + 1) * P := by
    rw [Nat.add_mul, Nat.one_mul]
    omega
  rw [List.range_succ, List.flatMap_append, List.flatMap_singleton]
  have hfront : (List.range (N' / P)).flatMap
      (fun i => List.range' (i * P) (min (N' + 1 - i * P) P))
      = (List.range (N' / P)).flatMap (fun i => List.range' (i * P) P) := by
    rw [List.flatMap_def, List.flatMap_def]
    congr 1
    apply List.map_congr_left
    intro i hi
    have hi' : i < N' / P := List.mem_range.mp hi
    have : i * P + P ≤ N' + 1 := by
      have : (i + 1) * P ≤ N' / P * P := Nat.mul_le_mul_right P hi'
      rw [Nat.add_mul, Nat.one_mul] at this
      omega
    rw [Nat.min_eq_right (by omega)]
  rw [hfront, range_flatMap_blocks]
  have hlast : min (N' + 1 - N' / P * P) P = N' + 1 - N' / P * P := by
    rw [Nat.min_eq_left]
    omega
  rw [hlast, List.range_eq_range', List.range_eq_range']
  have h := List.range'_append 0 (N' / P * P) (N' + 1 - N' / P * P) 1
  simp only [Nat.zero_add, Nat.one_mul] at h
  rw [h]
  congr 1
  omega

/-- A serialized record occupies exactly `StationInfo.sizeof` bytes. -/
theorem serializeS_length (M : ConnInfo) (hM : M.Lawful) (r : StationInfo M) :
    (StationInfo.serializeS M r).length = StationInfo.sizeofS M := by
  unfold StationInfo.serializeS StationInfo.sizeofS
  rw [List.length_append, hM.ser_len]
  rfl

/-- The record loop of `parse`, fed the serialized records sitting at the
right offset of the message, succeeds and performs exactly the consecutive
writes `writeAll`. -/
theorem parseRecords_writeAll (M : ConnInfo) (hM : M.Lawful) (msg : List Nat) :
    ∀ (rs : List (StationInfo M)) (byteOff idx : Nat)
      (infos : List (Option (StationInfo M))) (rest : List Nat),
    msg.drop byteOff = rs.flatMap (StationInfo.serializeS M) ++ rest →
    idx + rs.length ≤ infos.length →
    parseRecords M msg rs.length byteOff idx infos
      = .ok (writeAll M infos idx rs)
  | [], byteOff, idx, infos, rest, hdrop, hbound => rfl
  | r :: rs, byteOff, idx, infos, rest, hdrop, hbound => by
    have hidx : idx < infos.length := by
      have := hbound
      simp only [List.length_cons] at this
      omega
    show (match infos[idx]? with
      | none => Except.error PyErr.indexOutOfRange
      | some _ =>
        (StationInfo.deserializeS M (msg.drop byteOff)).bind fun info =>
        parseRecords M msg rs.length (byteOff + StationInfo.sizeofS M) (idx + 1)
          (infos.set idx (some info))) = _
    obtain ⟨o, ho⟩ : ∃ o, infos[idx]? = some o :=
      ⟨infos[idx], List.getElem?_eq_getElem hidx⟩
    rw [ho]
    rw [List.flatMap_cons, List.append_assoc] at hdrop
    rw [hdrop, deserializeS_serializeS M hM r _]
    show parseRecords M msg rs.length (byteOff + StationInfo.sizeofS M) (idx + 1)
        (infos.set idx (some r)) = _
    have hdrop' : msg.drop (byteOff + StationInfo.sizeofS M)
        = rs.flatMap (StationInfo.serializeS M) ++ rest := by
      rw [← List.drop_drop, hdrop, ← serializeS_length M hM r, List.drop_left]
    have := parseRecords_writeAll M hM msg rs (byteOff + StationInfo.sizeofS M)
      (idx + 1) (infos.set idx (some r)) rest hdrop'
      (by rw [List.length_set]; simp only [List.length_cons] at hbound; omega)
    rw [this]
    rfl

/-- Writing with `writeAll` preserves the length of the slot list. -/
theorem writeAll_length (M : ConnInfo) :
    ∀ (rs : List (StationInfo M)) (infos : List (Option (StationInfo M)))
      (idx : Nat), (writeAll M infos idx rs).length = infos.length
  | [], _, _ => rfl
  | r :: rs, infos, idx => by
    show (writeAll M (infos.set idx (some r)) (idx + 1) rs).length = _
    rw [writeAll_length M rs, List.length_set]

/-- Slot contents after `writeAll`: the written window holds the records,
everything else is untouched. -/
theorem writeAll_getElem (M : ConnInfo) :
    ∀ (rs : List (StationInfo M)) (infos : List (Option (StationInfo M)))
      (idx j : Nat), idx + rs.length ≤ infos.length →
    (writeAll M infos idx rs)[j]? =
      if idx ≤ j ∧ j < idx + rs.length
      then (rs[j - idx]?).map some
      else infos[j]?
  | [], infos, idx, j, hbound => by
    rw [if_neg (by simp only [List.length_nil]; omega)]
    rfl
  | r :: rs, infos, idx, j, hbound => by
    have hidx : idx < infos.length := by
      simp only [List.length_cons] at hbound
      omega
    show (writeAll M (infos.set idx (some r)) (idx + 1) rs)[j]? = _
    rw [writeAll_getElem M rs (infos.set idx (some r)) (idx + 1) j
      (by rw [List.length_set]; simp only [List.length_cons] at hbound; omega)]
    by_cases h1 : idx + 1 ≤ j ∧ j < idx + 1 + rs.length
    · rw [if_pos h1, if_pos (by simp only [List.length_cons]; omega)]
      have hk : j - idx = (j - (idx + 1)) + 1 := by omega
      rw [hk, List.getElem?_cons_succ]
    · rw [if_neg h1]
      by_cases h2 : j = idx
      · subst h2
        rw [List.getElem?_set_self hidx,
          if_pos (by simp only [List.length_cons]; omega), Nat.sub_self,
          List.getElem?_cons_zero]
        rfl
      · rw [List.getElem?_set_ne (fun hh => h2 hh.symm),
          if_neg (by simp only [List.length_cons]; omega)]

/-- Coverage distributes over concatenation of fragment sets. -/
theorem covered_append (S T : List (Nat × Nat × Nat)) (j : Nat) :
    covered (S ++ T) j = (covered S j || covered T j) :=
  List.any_append

/-- Coverage by a single fragment. -/
theorem covered_singleton (t : Nat × Nat × Nat) (j : Nat) :
    covered [t] j = decide (t.2.1 ≤ j ∧ j < t.2.1 + t.2.2) := by
  unfold covered
  rw [List.any_cons, List.any_nil, Bool.or_false]

/-- Marking fragment `t.1` in the bitset of `S` yields the bitset of
`S ++ [t]`. -/
theorem received_set (F : Nat) (S : List (Nat × Nat × Nat))
    (t : Nat × Nat × Nat) (ht : t.1 < F) :
    ((List.range F).map fun i => S.any fun u => u.1 == i).set t.1 true
      = (List.range F).map fun i => (S ++ [t]).any fun u => u.1 == i := by
  apply List.ext_getElem?
  intro j
  by_cases hj : j < F
  · by_cases hjt : j = t.1
    · subst hjt
      rw [List.getElem?_set_self (by rw [List.length_map, List.length_range]; exact ht),
        List.getElem?_map, List.getElem?_range hj]
      simp [List.any_append]
    · rw [List.getElem?_set_ne (fun hh => hjt hh.symm),
        List.getElem?_map, List.getElem?_map, List.getElem?_range hj]
      have h1 : ([t].any fun u => u.1 == j) = false := by
        simp [Ne.symm hjt]
      simp only [Option.map_some']
      rw [List.any_append, h1, Bool.or_false]
  · rw [List.getElem?_eq_none (by rw [List.length_set, List.length_map, List.length_range]; omega),
      List.getElem?_eq_none (by rw [List.length_map, List.length_range]; omega)]

/-- Writing the records of fragment `t`'s range into the record array of
`S` yields the record array of `S ++ [t]`. -/
theorem invInfos_write (M : ConnInfo) (recs : List (StationInfo M))
    (S : List (Nat × Nat × Nat)) (t : Nat × Nat × Nat)
    (hrange : t.2.1 + t.2.2 ≤ recs.length) :
    writeAll M
        ((List.range recs.length).map fun j => if covered S j then recs[j]? else none)
        t.2.1 ((recs.drop t.2.1).take t.2.2)
      = (List.range recs.length).map fun j =>
          if covered (S ++ [t]) j then recs[j]? else none := by
  have hslice : ((recs.drop t.2.1).take t.2.2).length = t.2.2 := by
    rw [List.length_take, List.length_drop]
    exact Nat.min_eq_left (by omega)
  apply List.ext_getElem?
  intro j
  rw [writeAll_getElem M _ _ _ _
    (by rw [hslice, List.length_map, List.length_range]; omega)]
  rw [hslice]
  by_cases hj : j < recs.length
  · by_cases hin : t.2.1 ≤ j ∧ j < t.2.1 + t.2.2
    · rw [if_pos hin, List.getElem?_take, if_pos (by omega), List.getElem?_drop,
        show t.2.1 + (j - t.2.1) = j from by omega,
        List.getElem?_map, List.getElem?_range hj]
      have hc : covered (S ++ [t]) j = true := by
        rw [covered_append, covered_singleton, Bool.or_eq_true]
        exact Or.inr (by simpa using hin)
      rw [List.getElem?_eq_getElem hj]
      simp [hc]
    · rw [if_neg hin, List.getElem?_map, List.getElem?_map,
        List.getElem?_range hj]
      have hc : covered (S ++ [t]) j = covered S j := by
        rw [covered_append, covered_singleton]
        simp [hin]
      simp only [Option.map_some']
      rw [hc]
  · rw [if_neg (by omega),
      List.getElem?_eq_none (by rw [List.length_map, List.length_range]; omega),
      List.getElem?_eq_none (by rw [List.length_map, List.length_range]; omega)]

/-- All record slots of the array of `S` are filled exactly when `S` covers
every index. -/
theorem invInfos_all_isSome (M : ConnInfo) (recs : List (StationInfo M))
    (S : List (Nat × Nat × Nat)) :
    (((List.range recs.length).map fun j =>
        if covered S j then recs[j]? else none).all Option.isSome)
      = coveredAll S recs.length := by
  have hiff : (((List.range recs.length).map fun j =>
      if covered S j then recs[j]? else none).all Option.isSome) = true
      ↔ coveredAll S recs.length = true := by
    unfold coveredAll
    rw [List.all_eq_true, List.all_eq_true]
    constructor
    · intro hall j hj
      have hjlt := List.mem_range.mp hj
      have h1 := hall _ (List.mem_map_of_mem _ hj)
      by_contra hcov
      rw [if_neg (by simpa using hcov)] at h1
      exact absurd h1 (by simp)
    · intro hcov x hx
      obtain ⟨j, hjmem, rfl⟩ := List.mem_map.mp hx
      have hjlt := List.mem_range.mp hjmem
      rw [if_pos (hcov j hjmem), List.getElem?_eq_getElem hjlt]
      rfl
  cases ha : (((List.range recs.length).map fun j =>
      if covered S j then recs[j]? else none).all Option.isSome) with
  | true => exact (hiff.mp ha).symm
  | false =>
    cases hb : coveredAll S recs.length with
    | false => rfl
    | true =>
      rw [hiff.mpr hb] at ha
      cases ha

/-- When `S` covers everything, the record array of `S` is the completed
list. -/
theorem invInfos_covered_eq (M : ConnInfo) (recs : List (StationInfo M))
    (S : List (Nat × Nat × Nat)) (hc : coveredAll S recs.length = true) :
    ((List.range recs.length).map fun j => if covered S j then recs[j]? else none)
      = recs.map some := by
  apply List.ext_getElem?
  intro j
  by_cases hj : j < recs.length
  · rw [List.getElem?_map, List.getElem?_map, List.getElem?_range hj]
    have hcov : covered S j = true := by
      unfold coveredAll at hc
      exact List.all_eq_true.mp hc j (List.mem_range.mpr hj)
    rw [List.getElem?_eq_getElem hj]
    simp [hcov]
  · rw [List.getElem?_eq_none (by rw [List.length_map, List.length_range]; omega),
      List.getElem?_eq_none (by rw [List.length_map]; omega)]

/-- The fresh assembly context (`update_info` on the first fragment) is the
invariant state with no fragment accepted yet. -/
theorem invDecoder_nil (M : ConnInfo) (recs : List (StationInfo M))
    (p h a F : Nat) :
    invDecoder M recs p h a F []
      = ⟨some p, recs.length, h, a, F, List.replicate F false,
         List.replicate recs.length none⟩ := by
  unfold invDecoder
  have h1 : ((List.range F).map fun i =>
        List.any ([] : List (Nat × Nat × Nat)) fun t => t.1 == i)
      = List.replicate F false := by
    rw [show (fun i => List.any ([] : List (Nat × Nat × Nat)) fun t => t.1 == i)
        = fun _ => false from rfl, List.map_const', List.length_range]
  have h2 : ((List.range recs.length).map fun j =>
      if covered [] j then recs[j]? else none)
      = List.replicate recs.length none := by
    rw [show (fun j => if covered [] j then recs[j]? else none)
        = fun _ => (none : Option (StationInfo M)) from by
          funext j
          rw [if_neg (by unfold covered; simp)],
      List.map_const', List.length_range]
  rw [h1, h2]

/-- Binding `Except.bind` on a success is application. -/
theorem exceptOkBind {α β : Type _} (a : α) (f : α → Except PyErr β) :
    (Except.ok a : Except PyErr α).bind f = f a := rfl

/-- Count-generalized form of `parseRecords_writeAll`. -/
theorem parseRecords_writeAll' (M : ConnInfo) (hM : M.Lawful) (msg : List Nat)
    (cnt : Nat) (rs : List (StationInfo M)) (byteOff idx : Nat)
    (infos : List (Option (StationInfo M))) (rest : List Nat)
    (hcnt : rs.length = cnt)
    (hdrop : msg.drop byteOff = rs.flatMap (StationInfo.serializeS M) ++ rest)
    (hbound : idx + rs.length ≤ infos.length) :
    parseRecords M msg cnt byteOff idx infos = .ok (writeAll M infos idx rs) := by
  subst hcnt
  exact parseRecords_writeAll M hM msg rs byteOff idx infos rest hdrop hbound

/-- Running `update_info` on a fragment of an attempt with header
`(recs.length, h, a, F)` produces the fresh assembly context. -/
theorem update_info_fragMsg (M : ConnInfo) (recs : List (StationInfo M))
    (p h a F : Nat) (t : Nat × Nat × Nat) :
    update_info M p (fragMsg M recs h a F t)
      = .ok (invDecoder M recs p h a F []) := by
  rw [invDecoder_nil]
  rfl

/-- A fragment of the tracked attempt always passes `check_info`. -/
theorem check_info_fragMsg (M : ConnInfo) (recs : List (StationInfo M))
    (p h a F : Nat) (S : List (Nat × Nat × Nat)) (t : Nat × Nat × Nat) :
    check_info M (invDecoder M recs p h a F S) p (fragMsg M recs h a F t)
      = .ok true := by
  have g1 : getByte (fragMsg M recs h a F t) 1 = .ok recs.length := rfl
  have g2 : getByte (fragMsg M recs h a F t) 2 = .ok h := rfl
  have g3 : getByte (fragMsg M recs h a F t) 3 = .ok a := rfl
  have g4 : getByte (fragMsg M recs h a F t) 4 = .ok F := rfl
  simp [check_info, invDecoder, g1, g2, g3, g4, Except.bind]

/-- On a matching fragment, `parse` from the invariant state is just the
fragment body. -/
theorem parse_inv_fragMsg (M : ConnInfo) (recs : List (StationInfo M))
    (p h a F : Nat) (S : List (Nat × Nat × Nat)) (t : Nat × Nat × Nat) :
    parse M (invDecoder M recs p h a F S) p (fragMsg M recs h a F t)
      = parseBody M (invDecoder M recs p h a F S) p (fragMsg M recs h a F t) := by
  have hh : parseHeader M (invDecoder M recs p h a F S) p (fragMsg M recs h a F t)
      = .ok (invDecoder M recs p h a F S) := by
    show (check_info M (invDecoder M recs p h a F S) p
        (fragMsg M recs h a F t)).bind _ = _
    rw [check_info_fragMsg, exceptOkBind]
    rfl
  unfold parse
  rw [hh, exceptOkBind]

/-- On the first fragment, `parse` from the fresh decoder initializes the
context from the header and runs the fragment body. -/
theorem parse_init_fragMsg (M : ConnInfo) (recs : List (StationInfo M))
    (p h a F : Nat) (t : Nat × Nat × Nat) :
    parse M (initDecoder M) p (fragMsg M recs h a F t)
      = parseBody M (invDecoder M recs p h a F []) p (fragMsg M recs h a F t) := by
  have hh : parseHeader M (initDecoder M) p (fragMsg M recs h a F t)
      = .ok (invDecoder M recs p h a F []) := by
    show update_info M p (fragMsg M recs h a F t) = _
    exact update_info_fragMsg M recs p h a F t
  unfold parse
  rw [hh, exceptOkBind]

/-- The step lemma: feeding a fresh in-range fragment `t` to the invariant
state of `S` accepts it; if its range completes the coverage the decoder
emits `(p, host_index, assigned_index, recs.map some)` and resets,
otherwise the state advances to the invariant state of `S ++ [t]`. -/
theorem parseBody_step (M : ConnInfo) (hM : M.Lawful)
    (recs : List (StationInfo M)) (p h a F : Nat)
    (S : List (Nat × Nat × Nat)) (t : Nat × Nat × Nat)
    (ht : t.1 < F) (hrange : t.2.1 + t.2.2 ≤ recs.length)
    (hfresh : ∀ u ∈ S, u.1 ≠ t.1) :
    parseBody M (invDecoder M recs p h a F S) p (fragMsg M recs h a F t)
      = if coveredAll (S ++ [t]) recs.length
        then .ok (JoinResponseDecoder.reset M (invDecoder M recs p h a F (S ++ [t])),
                  some ⟨p, h, a, recs.map some⟩)
        else .ok (invDecoder M recs p h a F (S ++ [t]), none) := by
  have hrec : (invDecoder M recs p h a F S).fragments_received[t.1]? = some false := by
    show ((List.range F).map fun i => S.any fun u => u.1 == i)[t.1]? = some false
    rw [List.getElem?_map, List.getElem?_range ht, Option.map_some']
    congr 1
    rw [List.any_eq_false]
    intro u hu
    simp [hfresh u hu]
  have hdisp : parseBody M (invDecoder M recs p h a F S) p (fragMsg M recs h a F t)
      = parseFragment M (invDecoder M recs p h a F S) p (fragMsg M recs h a F t) t.1 := by
    unfold parseBody
    rw [show getByte (fragMsg M recs h a F t) 5 = .ok t.1 from rfl, exceptOkBind, hrec]
  have hslice : ((recs.drop t.2.1).take t.2.2).length = t.2.2 := by
    rw [List.length_take, List.length_drop]
    exact Nat.min_eq_left (by omega)
  have hdrop : (fragMsg M recs h a F t).drop 8
      = ((recs.drop t.2.1).take t.2.2).flatMap (StationInfo.serializeS M) ++ [] := by
    rw [List.append_nil]
    show (([2, recs.length, h, a, F, t.1, t.2.2, t.2.1] : List Nat)
        ++ ((recs.drop t.2.1).take t.2.2).flatMap (StationInfo.serializeS M)).drop 8 = _
    rw [show (8 : Nat)
        = ([2, recs.length, h, a, F, t.1, t.2.2, t.2.1] : List Nat).length from rfl,
      List.drop_left]
  have hwrite : parseRecords M (fragMsg M recs h a F t) t.2.2 8 t.2.1
      (invDecoder M recs p h a F S).infos
      = .ok ((List.range recs.length).map fun j =>
          if covered (S ++ [t]) j then recs[j]? else none) := by
    refine (parseRecords_writeAll' M hM (fragMsg M recs h a F t) t.2.2
      ((recs.drop t.2.1).take t.2.2) 8 t.2.1
      (invDecoder M recs p h a F S).infos [] hslice hdrop ?_).trans ?_
    · show t.2.1 + ((recs.drop t.2.1).take t.2.2).length
          ≤ ((List.range recs.length).map fun j =>
              if covered S j then recs[j]? else none).length
      rw [hslice, List.length_map, List.length_range]
      omega
    · show Except.ok (writeAll M ((List.range recs.length).map fun j =>
          if covered S j then recs[j]? else none) t.2.1 ((recs.drop t.2.1).take t.2.2)) = _
      rw [invInfos_write M recs S t hrange]
  have hset : (invDecoder M recs p h a F S).fragments_received.set t.1 true
      = (invDecoder M recs p h a F (S ++ [t])).fragments_received := by
    show ((List.range F).map fun i => S.any fun u => u.1 == i).set t.1 true = _
    rw [received_set F S t ht]
    rfl
  rw [hdisp]
  unfold parseFragment
  rw [show getByte (fragMsg M recs h a F t) 6 = .ok t.2.2 from rfl,
    show getByte (fragMsg M recs h a F t) 7 = .ok t.2.1 from rfl]
  simp only [exceptOkBind]
  rw [hwrite]
  simp only [exceptOkBind]
  rw [invInfos_all_isSome M recs (S ++ [t]), hset]
  by_cases hcov : coveredAll (S ++ [t]) recs.length = true
  · rw [if_pos hcov, if_pos hcov]
    simp only [invDecoder, JoinResponseDecoder.reset]
    rw [invInfos_covered_eq M recs (S ++ [t]) hcov]
  · rw [if_neg hcov, if_neg hcov]
    simp only [invDecoder, JoinResponseDecoder.reset]

/-- Being covered is membership in the concatenated ranges. -/
theorem covered_iff_mem (S : List (Nat × Nat × Nat)) (j : Nat) :
    covered S j = true ↔ j ∈ S.flatMap rangesOf := by
  unfold covered rangesOf
  rw [List.any_eq_true, List.mem_flatMap]
  constructor
  · rintro ⟨t, htm, hdec⟩
    exact ⟨t, htm, List.mem_range'_1.mpr (of_decide_eq_true hdec)⟩
  · rintro ⟨t, htm, hmem⟩
    exact ⟨t, htm, decide_eq_true (List.mem_range'_1.mp hmem)⟩

/-- A strict sub-collection of the fragments of a partition of `[0, N)`
(with every fragment nonempty) cannot cover all of `[0, N)`. -/
theorem not_coveredAll (N : Nat) (tagged S T : List (Nat × Nat × Nat))
    (hpart : (tagged.flatMap rangesOf).Perm (List.range N))
    (hcnt : ∀ u ∈ tagged, 0 < u.2.2)
    (hsp : (S ++ T).Perm tagged) (hT : T ≠ []) :
    coveredAll S N = false := by
  cases hca : coveredAll S N with
  | false => rfl
  | true =>
    exfalso
    have hsub : List.range N ⊆ S.flatMap rangesOf := by
      intro j hj
      have hj' := List.mem_range.mp hj
      have := List.all_eq_true.mp hca j hj
      exact (covered_iff_mem S j).mp this
    have hlen : (S.flatMap rangesOf).length + (T.flatMap rangesOf).length = N := by
      have h1 : ((S ++ T).flatMap rangesOf).Perm (List.range N) :=
        (List.Perm.flatMap_right rangesOf hsp).trans hpart
      have h2 := h1.length_eq
      rw [List.flatMap_append, List.length_append, List.length_range] at h2
      exact h2
    have hTlen : 0 < (T.flatMap rangesOf).length := by
      match T, hT with
      | u :: T', _ =>
        have hu : u ∈ tagged := (hsp.mem_iff).mp (by simp)
        have := hcnt u hu
        rw [List.flatMap_cons, List.length_append]
        unfold rangesOf
        rw [List.length_range']
        omega
    have hcard : N ≤ (S.flatMap rangesOf).length := by
      have hnd : (List.range N).Nodup := List.nodup_range N
      have hfsub : (List.range N).toFinset ⊆ (S.flatMap rangesOf).toFinset := by
        intro x hx
        exact List.mem_toFinset.mpr (hsub (List.mem_toFinset.mp hx))
      calc N = (List.range N).length := (List.length_range N).symm
        _ = (List.range N).toFinset.card := (List.toFinset_card_of_nodup hnd).symm
        _ ≤ (S.flatMap rangesOf).toFinset.card := Finset.card_le_card hfsub
        _ ≤ (S.flatMap rangesOf).length := List.toFinset_card_le _
    omega

/-- A full permutation of the fragments of a partition of `[0, N)` covers
all of `[0, N)`. -/
theorem coveredAll_full (N : Nat) (tagged S : List (Nat × Nat × Nat))
    (hpart : (tagged.flatMap rangesOf).Perm (List.range N))
    (hsp : S.Perm tagged) :
    coveredAll S N = true := by
  unfold coveredAll
  rw [List.all_eq_true]
  intro j hj
  rw [covered_iff_mem]
  have : j ∈ tagged.flatMap rangesOf := (hpart.mem_iff).mpr hj
  exact ((List.Perm.flatMap_right rangesOf hsp).mem_iff).mpr this

/-- Every tagged fragment of a valid split has its fragment index below the
fragment count and its record range inside `[0, N)`. -/
theorem frag_facts (N : Nat) (frags : List (Nat × Nat))
    (hpart : ((taggedFrags frags).flatMap rangesOf).Perm (List.range N))
    (hcnt : ∀ oc ∈ frags, 0 < oc.2)
    (t : Nat × Nat × Nat) (htmem : t ∈ taggedFrags frags) :
    t.1 < frags.length ∧ 0 < t.2.2 ∧ t.2.1 + t.2.2 ≤ N := by
  have hmem' : (t.1, t.2) ∈ frags.enum := by
    simpa using htmem
  obtain ⟨hlt, heq⟩ := List.mem_enum hmem'
  have hsnd : t.2 ∈ frags := heq ▸ List.getElem_mem hlt
  have hpos : 0 < t.2.2 := hcnt t.2 hsnd
  refine ⟨hlt, hpos, ?_⟩
  have hmemr : t.2.1 + t.2.2 - 1 ∈ rangesOf t := by
    unfold rangesOf
    rw [List.mem_range'_1]
    omega
  have : t.2.1 + t.2.2 - 1 ∈ (taggedFrags frags).flatMap rangesOf :=
    List.mem_flatMap.mpr ⟨t, htmem, hmemr⟩
  have := List.mem_range.mp ((hpart.mem_iff).mp this)
  omega

/-- The fragment indices of a permutation of a tagged split are distinct. -/
theorem perm_fst_nodup (frags : List (Nat × Nat))
    (perm : List (Nat × Nat × Nat)) (hperm : perm.Perm (taggedFrags frags)) :
    (perm.map Prod.fst).Nodup := by
  rw [(hperm.map Prod.fst).nodup_iff,
    show (taggedFrags frags).map Prod.fst = List.range frags.length from
      List.enum_map_fst frags]
  exact List.nodup_range _

/-- Unfolding of `runParse` on one fed fragment. -/
theorem runParse_cons (M : ConnInfo) (d : JoinResponseDecoder M) (q : Nat)
    (m : List Nat) (rest : List (Nat × List Nat)) :
    runParse M d ((q, m) :: rest)
      = (parse M d q m).bind fun de =>
        (runParse M de.1 rest).bind fun rs =>
        .ok (rs.1, de.2.toList ++ rs.2) := rfl

/-- Feeding fragments of a valid split while more remain afterwards: every
fragment is accepted, no completion fires, and the decoder advances to the
invariant state of the fragments fed so far. -/
theorem runParse_incomplete (M : ConnInfo) (hM : M.Lawful)
    (recs : List (StationInfo M)) (p h a F : Nat)
    (frags : List (Nat × Nat)) (hF : F = frags.length)
    (hpart : ((taggedFrags frags).flatMap rangesOf).Perm (List.range recs.length))
    (hcnt : ∀ oc ∈ frags, 0 < oc.2) :
    ∀ (rem done rest : List (Nat × Nat × Nat)),
    (done ++ rem ++ rest).Perm (taggedFrags frags) →
    rest ≠ [] →
    runParse M (invDecoder M recs p h a F done)
        (rem.map fun t => (p, fragMsg M recs h a F t))
      = .ok (invDecoder M recs p h a F (done ++ rem), [])
  | [], done, rest, hsp, hrest => by
    rw [List.append_nil]
    rfl
  | t :: rem', done, rest, hsp, hrest => by
    have htm : t ∈ taggedFrags frags := (hsp.mem_iff).mp (by simp)
    obtain ⟨ht1, htpos, htrange⟩ :=
      frag_facts recs.length frags hpart hcnt t htm
    have hfresh : ∀ u ∈ done, u.1 ≠ t.1 := by
      have hnd : ((done ++ (t :: rem') ++ rest).map Prod.fst).Nodup :=
        perm_fst_nodup frags _ hsp
      rw [List.map_append, List.map_append, List.nodup_append] at hnd
      have hnd2 := hnd.1
      rw [List.map_cons, List.nodup_append] at hnd2
      intro u hu hne
      exact hnd2.2.2 (List.mem_map_of_mem Prod.fst hu)
        (by rw [hne]; exact List.mem_cons_self _ _)
    have hcov : coveredAll (done ++ [t]) recs.length = false := by
      refine not_coveredAll recs.length (taggedFrags frags) (done ++ [t])
        (rem' ++ rest) hpart
        (fun u hu => (frag_facts recs.length frags hpart hcnt u hu).2.1) ?_ ?_
      · rw [show (done ++ [t]) ++ (rem' ++ rest) = done ++ (t :: rem') ++ rest
          from by simp]
        exact hsp
      · intro hemp
        exact hrest (List.append_eq_nil.mp hemp).2
    show runParse M (invDecoder M recs p h a F done)
        ((p, fragMsg M recs h a F t) :: rem'.map fun u => (p, fragMsg M recs h a F u))
      = _
    rw [runParse_cons, parse_inv_fragMsg,
      parseBody_step M hM recs p h a F done t (hF ▸ ht1) htrange hfresh,
      hcov, if_neg Bool.false_ne_true, exceptOkBind]
    have hsp' : ((done ++ [t]) ++ rem' ++ rest).Perm (taggedFrags frags) := by
      rw [show (done ++ [t]) ++ rem' ++ rest = done ++ (t :: rem') ++ rest
        from by simp]
      exact hsp
    rw [show ((invDecoder M recs p h a F (done ++ [t]),
        (none : Option (Finished M))).1) = invDecoder M recs p h a F (done ++ [t])
      from rfl]
    rw [runParse_incomplete M hM recs p h a F frags hF hpart hcnt
      rem' (done ++ [t]) rest hsp' hrest, exceptOkBind]
    rw [show (done ++ [t]) ++ rem' = done ++ (t :: rem') from by simp]
    rfl

/-- Feeding the complete remainder of a valid split: every fragment is
accepted, completion fires exactly on the last one with the full completed
record list, and the decoder resets. -/
theorem runParse_complete (M : ConnInfo) (hM : M.Lawful)
    (recs : List (StationInfo M)) (p h a F : Nat)
    (frags : List (Nat × Nat)) (hF : F = frags.length)
    (hpart : ((taggedFrags frags).flatMap rangesOf).Perm (List.range recs.length))
    (hcnt : ∀ oc ∈ frags, 0 < oc.2) :
    ∀ (rem done : List (Nat × Nat × Nat)), rem ≠ [] →
    (done ++ rem).Perm (taggedFrags frags) →
    runParse M (invDecoder M recs p h a F done)
        (rem.map fun t => (p, fragMsg M recs h a F t))
      = .ok (JoinResponseDecoder.reset M
              (invDecoder M recs p h a F (done ++ rem)),
             [⟨p, h, a, recs.map some⟩])
  | [], _, hne, _ => absurd rfl hne
  | [t], done, _, hsp => by
    have htm : t ∈ taggedFrags frags := (hsp.mem_iff).mp (by simp)
    obtain ⟨ht1, htpos, htrange⟩ :=
      frag_facts recs.length frags hpart hcnt t htm
    have hfresh : ∀ u ∈ done, u.1 ≠ t.1 := by
      have hnd : ((done ++ [t]).map Prod.fst).Nodup :=
        perm_fst_nodup frags _ hsp
      rw [List.map_append, List.nodup_append] at hnd
      intro u hu hne
      exact hnd.2.2 (List.mem_map_of_mem Prod.fst hu)
        (by rw [hne]; simp)
    have hcov : coveredAll (done ++ [t]) recs.length = true :=
      coveredAll_full recs.length (taggedFrags frags) (done ++ [t]) hpart hsp
    show runParse M (invDecoder M recs p h a F done)
        ((p, fragMsg M recs h a F t) :: ([] : List (Nat × Nat × Nat)).map
          fun u => (p, fragMsg M recs h a F u)) = _
    rw [runParse_cons, parse_inv_fragMsg,
      parseBody_step M hM recs p h a F done t (hF ▸ ht1) htrange hfresh,
      hcov, if_pos rfl, exceptOkBind]
    rfl
  | t :: t' :: rem'', done, _, hsp => by
    have htm : t ∈ taggedFrags frags := (hsp.mem_iff).mp (by simp)
    obtain ⟨ht1, htpos, htrange⟩ :=
      frag_facts recs.length frags hpart hcnt t htm
    have hfresh : ∀ u ∈ done, u.1 ≠ t.1 := by
      have hnd : ((done ++ (t :: t' :: rem'')).map Prod.fst).Nodup :=
        perm_fst_nodup frags _ hsp
      rw [List.map_append, List.nodup_append] at hnd
      intro u hu hne
      exact hnd.2.2 (List.mem_map_of_mem Prod.fst hu)
        (by rw [hne]; simp)
    have hcov : coveredAll (done ++ [t]) recs.length = false := by
      refine not_coveredAll recs.length (taggedFrags frags) (done ++ [t])
        (t' :: rem'') hpart
        (fun u hu => (frag_facts recs.length frags hpart hcnt u hu).2.1) ?_ ?_
      · rw [show (done ++ [t]) ++ (t' :: rem'') = done ++ (t :: t' :: rem'')
          from by simp]
        exact hsp
      · exact List.cons_ne_nil _ _
    show runParse M (invDecoder M recs p h a F done)
        ((p, fragMsg M recs h a F t) :: (t' :: rem'').map
          fun u => (p, fragMsg M recs h a F u)) = _
    rw [runParse_cons, parse_inv_fragMsg,
      parseBody_step M hM recs p h a F done t (hF ▸ ht1) htrange hfresh,
      hcov, if_neg Bool.false_ne_true, exceptOkBind]
    have hsp' : ((done ++ [t]) ++ (t' :: rem'')).Perm (taggedFrags frags) := by
      rw [show (done ++ [t]) ++ (t' :: rem'') = done ++ (t :: t' :: rem'')
        from by simp]
      exact hsp
    rw [show ((invDecoder M recs p h a F (done ++ [t]),
        (none : Option (Finished M))).1) = invDecoder M recs p h a F (done ++ [t])
      from rfl]
    rw [runParse_complete M hM recs p h a F frags hF hpart hcnt
      (t' :: rem'') (done ++ [t]) (List.cons_ne_nil _ _) hsp', exceptOkBind]
    rw [show (done ++ [t]) ++ (t' :: rem'') = done ++ (t :: t' :: rem'')
      from by simp]
    rfl

/-- C3: for every valid fragmentation of a station list `recs` — fragments
tagged with distinct indices `0..F-1` whose record ranges together are a
partition of `[0, recs.length)` (`hpart`), each nonempty — feeding the
fragments to the decoder in **any** order (`perm`): every prefix of `k`
fragments parses successfully; the reassembly completes (fires `finished`)
exactly when every index in `[0, num_stations)` is covered by the accepted
fragments, which for a partition happens exactly at the last fragment; and
the completed record list is `recs.map some` — the same in every order,
in particular the same as in the original order. -/
theorem mesh_C3_reassembly_order_independent (M : ConnInfo) (hM : M.Lawful)
    (recs : List (StationInfo M)) (p h a : Nat)
    (frags : List (Nat × Nat)) (F : Nat) (hF : F = frags.length)
    (hN : 0 < recs.length)
    (hcnt : ∀ oc ∈ frags, 0 < oc.2)
    (hpart : ((taggedFrags frags).flatMap rangesOf).Perm (List.range recs.length))
    (perm : List (Nat × Nat × Nat)) (hperm : perm.Perm (taggedFrags frags))
    (k : Nat) (hk : k ≤ F) :
    ∃ d, runParse M (initDecoder M)
        ((perm.take k).map fun t => (p, fragMsg M recs h a F t))
      = .ok (d, if coveredAll (perm.take k) recs.length
                then [⟨p, h, a, recs.map some⟩] else [])
      ∧ (coveredAll (perm.take k) recs.length = true ↔ k = F) := by
  have hF0 : 0 < F := by
    rcases frags with _ | ⟨f0, frest⟩
    · exfalso
      have h0 := hpart.length_eq
      simp [taggedFrags] at h0
      omega
    · rw [hF]
      simp
  have hlen : perm.length = F := by
    rw [hperm.length_eq]
    unfold taggedFrags
    rw [List.enum_length]
    exact hF.symm
  cases k with
  | zero =>
    have hcov0 : coveredAll ([] : List (Nat × Nat × Nat)) recs.length = false := by
      unfold coveredAll
      rw [List.all_eq_false]
      exact ⟨0, List.mem_range.mpr hN, by simp [covered]⟩
    refine ⟨initDecoder M, ?_, ?_⟩
    · rw [List.take_zero, hcov0, if_neg Bool.false_ne_true]
      rfl
    · rw [List.take_zero, hcov0]
      exact ⟨fun habs => absurd habs Bool.false_ne_true,
             fun h0 => absurd h0 (by omega)⟩
  | succ k' =>
    obtain ⟨t0, tk, htk⟩ : ∃ t0 tk, perm.take (k' + 1) = t0 :: tk := by
      match hp : perm with
      | [] => exact absurd hlen (by simp only [List.length_nil]; omega)
      | t0 :: rest => exact ⟨t0, rest.take k', by rw [List.take_succ_cons]⟩
    have hswitch : runParse M (initDecoder M)
        ((t0 :: tk).map fun t => (p, fragMsg M recs h a F t))
      = runParse M (invDecoder M recs p h a F [])
        ((t0 :: tk).map fun t => (p, fragMsg M recs h a F t)) := by
      show runParse M (initDecoder M)
          ((p, fragMsg M recs h a F t0) :: tk.map fun t => (p, fragMsg M recs h a F t))
        = runParse M (invDecoder M recs p h a F [])
          ((p, fragMsg M recs h a F t0) :: tk.map fun t => (p, fragMsg M recs h a F t))
      rw [runParse_cons, runParse_cons, parse_init_fragMsg, parse_inv_fragMsg]
    by_cases hkF : k' + 1 = F
    · have htake : perm.take (k' + 1) = perm := by
        rw [hkF, ← hlen, List.take_length]
      have hcov : coveredAll (perm.take (k' + 1)) recs.length = true := by
        rw [htake]
        exact coveredAll_full recs.length (taggedFrags frags) perm hpart hperm
      have hiff : coveredAll (perm.take (k' + 1)) recs.length = true ↔ k' + 1 = F := by
        rw [hcov]
        exact ⟨fun _ => hkF, fun _ => rfl⟩
      have hrun : runParse M (initDecoder M)
          ((perm.take (k' + 1)).map fun t => (p, fragMsg M recs h a F t))
          = .ok (JoinResponseDecoder.reset M
                  (invDecoder M recs p h a F ([] ++ (t0 :: tk))),
                 if coveredAll (perm.take (k' + 1)) recs.length
                 then [⟨p, h, a, recs.map some⟩] else []) := by
        rw [hcov, if_pos rfl, htk, hswitch]
        exact runParse_complete M hM recs p h a F frags hF hpart hcnt
          (t0 :: tk) [] (List.cons_ne_nil _ _)
          (by rw [List.nil_append, ← htk, htake]; exact hperm)
      exact ⟨_, hrun, hiff⟩
    · have hdrop_ne : perm.drop (k' + 1) ≠ [] := by
        rw [ne_eq, List.drop_eq_nil_iff]
        omega
      have hcov : coveredAll (perm.take (k' + 1)) recs.length = false := by
        refine not_coveredAll recs.length (taggedFrags frags)
          (perm.take (k' + 1)) (perm.drop (k' + 1)) hpart
          (fun u hu => (frag_facts recs.length frags hpart hcnt u hu).2.1)
          ?_ hdrop_ne
        rw [List.take_append_drop]
        exact hperm
      have hiff : coveredAll (perm.take (k' + 1)) recs.length = true ↔ k' + 1 = F := by
        rw [hcov]
        exact ⟨fun habs => absurd habs Bool.false_ne_true,
               fun h0 => absurd h0 hkF⟩
      have hrun : runParse M (initDecoder M)
          ((perm.take (k' + 1)).map fun t => (p, fragMsg M recs h a F t))
          = .ok (invDecoder M recs p h a F ([] ++ (t0 :: tk)),
                 if coveredAll (perm.take (k' + 1)) recs.length
                 then [⟨p, h, a, recs.map some⟩] else []) := by
        rw [hcov, if_neg Bool.false_ne_true, htk, hswitch]
        exact runParse_incomplete M hM recs p h a F frags hF hpart hcnt
          (t0 :: tk) [] (perm.drop (k' + 1))
          (by rw [List.nil_append, ← htk, List.take_append_drop]; exact hperm)
          hdrop_ne
      exact ⟨_, hrun, hiff⟩

/-- C3 witness: the spec's five-station split `[0,2) [2,4) [4,5)` fed in the
order third-first-second completes with the full record list. -/
theorem mesh_C3_witness :
    ∃ d, runParse byteConn (initDecoder byteConn)
        ((([(2, (4, 1)), (0, (0, 2)), (1, (2, 2))]
            : List (Nat × Nat × Nat)).take 3).map
          fun t => (7, fragMsg byteConn sampleRecords 0 1 3 t))
      = .ok (d, if coveredAll (([(2, (4, 1)), (0, (0, 2)), (1, (2, 2))]
                    : List (Nat × Nat × Nat)).take 3) sampleRecords.length
                then [⟨7, 0, 1, sampleRecords.map some⟩] else [])
      ∧ (coveredAll (([(2, (4, 1)), (0, (0, 2)), (1, (2, 2))]
            : List (Nat × Nat × Nat)).take 3) sampleRecords.length = true ↔ 3 = 3) :=
  mesh_C3_reassembly_order_independent byteConn byteConn_lawful sampleRecords 7 0 1
    [(0, 2), (2, 2), (4, 1)] 3 (by decide) (by decide) (by decide) (by decide)
    [(2, (4, 1)), (0, (0, 2)), (1, (2, 2))] (by decide) 3 (by decide)

/-- C5: for `N > 0` stations and positive per-packet capacity `P`,
`send_join_response` emits exactly `ceil(N/P)` fragment packets; their
`(recordOffset, recordsInFragment)` ranges partition `[0, N)` in order,
without gaps or overlaps; and fragment `i` is the header
`[0x02, N, host_index, assigned_index, fragment_count, i,
records_in_fragment, offset]` followed by the serialized records of its
range. -/
theorem mesh_C5_send_join_response_fragments (M : ConnInfo) (h a : Nat)
    (stations : List (StationInfo M)) (size_limit : Nat)
    (hP : 0 < perPacket M size_limit) (hN : 0 < stations.length) :
    (send_join_response M h a stations size_limit).length
        = (stations.length + perPacket M size_limit - 1) / perPacket M size_limit ∧
    (List.range (numFragments M stations.length size_limit)).flatMap
        (fun i => List.range' (i * perPacket M size_limit)
          (min (stations.length - i * perPacket M size_limit)
            (perPacket M size_limit)))
      = List.range stations.length ∧
    ∀ i, i < numFragments M stations.length size_limit →
      (send_join_response M h a stations size_limit)[i]? = some
        ([2, stations.length, h, a, numFragments M stations.length size_limit, i,
          min (stations.length - i * perPacket M size_limit)
            (perPacket M size_limit),
          i * perPacket M size_limit]
         ++ ((stations.drop (i * perPacket M size_limit)).take
              (min (stations.length - i * perPacket M size_limit)
                (perPacket M size_limit))).flatMap (StationInfo.serializeS M)) := by
  refine ⟨?_, ?_, ?_⟩
  · simp [send_join_response, numFragments]
  · exact partition_range stations.length (perPacket M size_limit) hP hN
  · intro i hi
    unfold send_join_response
    rw [List.getElem?_map, List.getElem?_range hi]
    rfl

/-- C5 witness: the spec's example — five stations, capacity two (descriptor
size 1 gives `infosize = 4`; `size_limit = 20` gives `per_packet = 2`):
three fragments whose ranges partition `[0, 5)`. -/
theorem mesh_C5_witness :
    (send_join_response byteConn 0 1 sampleRecords 20).length
        = (5 + perPacket byteConn 20 - 1) / perPacket byteConn 20 ∧
    (List.range (numFragments byteConn 5 20)).flatMap
        (fun i => List.range' (i * perPacket byteConn 20)
          (min (5 - i * perPacket byteConn 20) (perPacket byteConn 20)))
      = List.range 5 :=
  ⟨(mesh_C5_send_join_response_fragments byteConn 0 1 sampleRecords 20
      (by decide) (by decide)).1,
   (mesh_C5_send_join_response_fragments byteConn 0 1 sampleRecords 20
      (by decide) (by decide)).2.1⟩
